import Mathlib

/-!
# Verification of the repo2text workspace-indexing and prompt-assembly core

Shallow embedding of the core of the `repo2text` editor extension:
the exclusion policy and ignore-pattern construction
(`src/utils/WorkspaceFileManager.ts`, `src/utils/constants.ts`), the
deterministic file-tree builder/renderer, the template engine
(`src/utils/TemplateManager.ts`) and the prompt assembler
(`src/utils/PromptGenerator.ts`).  File-system access
(`vscode.workspace.fs`), the `fast-glob` library and `asRelativePath`
are external services; they are modelled as explicit parameters.  Paths
are modelled as POSIX paths (`path.sep = "/"`).
-/

namespace Repo2Text

/-! ## Constants (`src/utils/constants.ts`)

`WorkspaceFileManager.ts` imports `COMMON_EXCLUDED_DIRS` and
`BINARY_FILE_EXTENSIONS` from `./constants`; the constants variant that
exports `BINARY_FILE_EXTENSIONS` is embedded here. -/

def COMMON_EXCLUDED_DIRS : List String :=
  [ "node_modules", ".git", "build", "dist", "out", "bin", "obj", "target",
    ".idea", ".vs", "vendor", "coverage", "__pycache__" ]

def BINARY_FILE_EXTENSIONS : List String :=
  [ ".png", ".jpg", ".jpeg", ".gif", ".ico",
    ".woff", ".woff2", ".ttf", ".eot", ".pdf", ".zip",
    ".gz", ".tar", ".rar", ".exe", ".dll", ".bin",
    ".mp3", ".mp4", ".avi", ".mov", ".webm", ".ogg",
    ".wav", ".flac", ".psd", ".ai", ".bmp", ".tiff" ]

def BYTES_PER_KB : Nat := 1024

def BYTES_PER_MB : Nat := BYTES_PER_KB * 1024

def PRECISION_FACTOR : Nat := 100

def DEFAULT_MAX_FILE_SIZE_MB : Nat := 5

/-! ## Character-level string primitives

JS string operations are embedded at the character level (structural
recursion over `String.data`) so that every definition evaluates inside
the Lean kernel.  Each primitive mirrors the JS method named in its
doc comment. -/

/-- `a.isPrefixOf b` on character lists. -/
def isPrefixOfChars : List Char → List Char → Bool
  | [], _ => true
  | _ :: _, [] => false
  | a :: as_, b :: bs => if a = b then isPrefixOfChars as_ bs else false

/-- JS `s.startsWith(pre)`. -/
def strStartsWith (s pre : String) : Bool := isPrefixOfChars pre.data s.data

/-- JS `s.endsWith(suf)`. -/
def strEndsWith (s suf : String) : Bool :=
  isPrefixOfChars suf.data.reverse s.data.reverse

/-- JS `s.split(sep)` for a one-character separator, on character
lists: split at every occurrence, keeping empty pieces (`"".split` is
`[""]`, a trailing separator yields a trailing empty piece). -/
def splitChar (sep : Char) : List Char → List (List Char)
  | [] => [[]]
  | c :: rest =>
    if c = sep then [] :: splitChar sep rest
    else
      match splitChar sep rest with
      | [] => [[c]]
      | l :: ls => (c :: l) :: ls

/-- JS `s.split(sep)` for a one-character separator. -/
def jsSplit (s : String) (sep : Char) : List String :=
  (splitChar sep s.data).map String.mk

/-- JS `s.slice(n)` / Lean `String.drop`, on characters. -/
def strDrop (s : String) (n : Nat) : String := String.mk (s.data.drop n)

/-- Drop the last `n` characters (`String.dropRight`). -/
def strDropRight (s : String) (n : Nat) : String :=
  String.mk (s.data.take (s.data.length - n))

/-- JS `s.toLowerCase()` (ASCII letters, as `Char.toLower`). -/
def strToLower (s : String) : String := String.mk (s.data.map Char.toLower)

/-- Strict lexicographic order on character lists, comparing code
points as naturals (the order JS `<`/`sort()` uses on strings; for the
ASCII path and template text involved here the UTF-16 code-unit order
and the code-point order agree). -/
def codeUnitLt : List Char → List Char → Bool
  | [], [] => false
  | [], _ :: _ => true
  | _ :: _, [] => false
  | a :: as_, b :: bs =>
    if a.toNat < b.toNat then true
    else if b.toNat < a.toNat then false
    else codeUnitLt as_ bs

/-- The non-strict string order used when sorting keys. -/
def strLe (a b : String) : Bool := !(codeUnitLt b.data a.data)

theorem charToNat_inj {a b : Char} (h : a.toNat = b.toNat) : a = b :=
  Char.ofNat_toNat a ▸ Char.ofNat_toNat b ▸ congrArg Char.ofNat h

theorem codeUnitLt_cons (x y : Char) (xs ys : List Char) :
    codeUnitLt (x :: xs) (y :: ys) = true ↔
      x.toNat < y.toNat ∨ (x.toNat = y.toNat ∧ codeUnitLt xs ys = true) := by
  simp only [codeUnitLt]
  by_cases h1 : x.toNat < y.toNat <;> by_cases h2 : y.toNat < x.toNat <;>
    simp [h1, h2] <;> omega

theorem codeUnitLt_irrefl (l : List Char) : codeUnitLt l l = false := by
  induction l with
  | nil => rfl
  | cons c cs ih => simp [codeUnitLt, ih]

theorem codeUnitLt_trans (a : List Char) :
    ∀ b c, codeUnitLt a b = true → codeUnitLt b c = true → codeUnitLt a c = true := by
  induction a with
  | nil =>
    intro b c hab hbc
    cases b with
    | nil => simp [codeUnitLt] at hab
    | cons y ys =>
      cases c with
      | nil => simp [codeUnitLt] at hbc
      | cons z zs => simp [codeUnitLt]
  | cons x xs ih =>
    intro b c hab hbc
    cases b with
    | nil => simp [codeUnitLt] at hab
    | cons y ys =>
      cases c with
      | nil => simp [codeUnitLt] at hbc
      | cons z zs =>
        rcases (codeUnitLt_cons x y xs ys).1 hab with h | ⟨he, hr⟩ <;>
          rcases (codeUnitLt_cons y z ys zs).1 hbc with h' | ⟨he', hr'⟩ <;>
          refine (codeUnitLt_cons x z xs zs).2 ?_
        · exact .inl (by omega)
        · exact .inl (by omega)
        · exact .inl (by omega)
        · exact .inr ⟨by omega, ih ys zs hr hr'⟩

theorem codeUnitLt_connex (a : List Char) :
    ∀ b, codeUnitLt a b = false → codeUnitLt b a = false → a = b := by
  induction a with
  | nil =>
    intro b hab _
    cases b with
    | nil => rfl
    | cons y ys => simp [codeUnitLt] at hab
  | cons x xs ih =>
    intro b hab hba
    cases b with
    | nil => simp [codeUnitLt] at hba
    | cons y ys =>
      have h1 : ¬ (x.toNat < y.toNat ∨ (x.toNat = y.toNat ∧ codeUnitLt xs ys = true)) := by
        rw [← codeUnitLt_cons]
        simp [hab]
      have h2 : ¬ (y.toNat < x.toNat ∨ (y.toNat = x.toNat ∧ codeUnitLt ys xs = true)) := by
        rw [← codeUnitLt_cons]
        simp [hba]
      push_neg at h1 h2
      have heq : x.toNat = y.toNat := by omega
      have hxs : codeUnitLt xs ys = false := by
        have := h1.2 heq
        simpa using this
      have hys : codeUnitLt ys xs = false := by
        have := h2.2 heq.symm
        simpa using this
      rw [charToNat_inj heq, ih ys hxs hys]

theorem strLe_refl (a : String) : strLe a a = true := by
  simp [strLe, codeUnitLt_irrefl]

theorem strLe_of_eq {a b : String} (h : a = b) : strLe a b = true :=
  h ▸ strLe_refl a

theorem strLe_total {a b : String} (h : strLe a b = false) : strLe b a = true := by
  simp only [strLe, Bool.not_eq_false'] at h
  simp only [strLe, Bool.not_eq_true']
  cases hab : codeUnitLt a.data b.data with
  | false => rfl
  | true =>
    have := codeUnitLt_trans _ _ _ hab h
    rw [codeUnitLt_irrefl] at this
    exact absurd this (by simp)

theorem strLe_trans {a b c : String} (h1 : strLe a b = true) (h2 : strLe b c = true) :
    strLe a c = true := by
  simp only [strLe, Bool.not_eq_true'] at h1 h2 ⊢
  cases hca : codeUnitLt c.data a.data with
  | false => rfl
  | true =>
    cases hab : codeUnitLt a.data b.data with
    | true =>
      have hcb := codeUnitLt_trans _ _ _ hca hab
      rw [h2] at hcb
      exact absurd hcb (by simp)
    | false =>
      have heq : a.data = b.data := codeUnitLt_connex _ _ hab h1
      rw [← heq, hca] at h2
      exact absurd h2 (by simp)

theorem strLe_antisymm {a b : String} (h1 : strLe a b = true) (h2 : strLe b a = true) :
    a = b := by
  simp only [strLe, Bool.not_eq_true'] at h1 h2
  obtain ⟨da⟩ := a
  obtain ⟨db⟩ := b
  simp only at h1 h2
  exact congrArg String.mk (codeUnitLt_connex da db h2 h1)

/-! ## Path helpers

Models of the Node `path` library (POSIX flavour) as used by the
extension: `path.basename`, `path.extname`, `path.isAbsolute`,
`path.join` and `path.relative`.  `path.join`/`path.relative` are
modelled for already-normalized absolute paths (no `.`/`..` segments),
which is the shape of the workspace paths the extension passes them. -/

/-- Segments of a path split on the separator, dropping empty segments
(the `filePath.split(path.sep).filter(Boolean)` idiom of the source). -/
def pathSegments (p : String) : List String :=
  (jsSplit p '/').filter (fun s => s ≠ "")

/-- `path.basename` for POSIX paths: the last non-empty segment
(`""` for the root path). -/
def basenameOf (p : String) : String :=
  (pathSegments p).getLastD ""

/-- Index of the last `.` in a character list, if any. -/
def lastDotIdx (cs : List Char) : Option Nat :=
  match cs with
  | [] => none
  | c :: rest =>
    match lastDotIdx rest with
    | some i => some (i + 1)
    | none => if c = '.' then some 0 else none

/-- `path.extname`: the suffix of the basename starting at its last `.`,
or `""` when the basename has no dot or only a leading dot. -/
def extname (p : String) : String :=
  let b := (basenameOf p).toList
  match lastDotIdx b with
  | none => ""
  | some 0 => ""
  | some i => String.mk (b.drop i)

/-- `path.isAbsolute` for POSIX paths. -/
def isAbsolute (p : String) : Bool := strStartsWith p "/"

/-- `path.join` of two normalized POSIX path pieces. -/
def pathJoin (a b : String) : String :=
  if a = "" then b else if b = "" then a else a ++ "/" ++ b

/-- Length of the common segment run of two segment lists. -/
def commonSegs : List String → List String → Nat
  | a :: as_, b :: bs => if a = b then commonSegs as_ bs + 1 else 0
  | _, _ => 0

/-- `path.relative` for normalized absolute POSIX paths: drop the common
leading segments, go up once per remaining source segment, then descend. -/
def pathRelative (f t : String) : String :=
  let fs := pathSegments f
  let ts := pathSegments t
  let c := commonSegs fs ts
  String.intercalate "/" (List.replicate (fs.length - c) ".." ++ ts.drop c)

/-! ## Exclusion policy (`WorkspaceFileManager.ts`) -/

/-- `WorkspaceFileManager.isExcludedFile`: binary extension
(case-insensitive) or an excluded directory name among the path segments
other than the final one (the file name). -/
def isExcludedFile (filePath : String) : Bool :=
  let fileExt := strToLower (extname filePath)
  if BINARY_FILE_EXTENSIONS.contains fileExt then
    true
  else
    -- the source loops over `pathSegments.length - 1` leading segments
    (pathSegments filePath).dropLast.any (fun seg => COMMON_EXCLUDED_DIRS.contains seg)

/-- `WorkspaceFileManager.isExcludedDirectory`: hidden-directory name
(when the setting is on) or an excluded directory name among any of the
path segments. -/
def isExcludedDirectory (dirPath : String) (excludeHiddenDirectories : Bool) : Bool :=
  let dirName := basenameOf dirPath
  if excludeHiddenDirectories && strStartsWith dirName "." then
    true
  else
    (pathSegments dirPath).any (fun seg => COMMON_EXCLUDED_DIRS.contains seg)

/-- `WorkspaceFileManager.updateEffectiveExcludedDirs`: the ignore-pattern
list used by every workspace scan.  Its only input is the
`excludeHiddenDirectories` configuration flag; it reads nothing else. -/
def updateEffectiveExcludedDirs (excludeHiddenDirectories : Bool) : List String :=
  (COMMON_EXCLUDED_DIRS.map (fun dir => "**/" ++ dir ++ "/**")) ++
  (BINARY_FILE_EXTENSIONS.map (fun ext => "**/*" ++ ext)) ++
  (if excludeHiddenDirectories then ["**/.*/**"] else [])

/-- micromatch/fast-glob semantics of an ignore glob of the shape
`**/<dir>/**` (the shape produced for `COMMON_EXCLUDED_DIRS`), for
slash-separated paths: the leading `**/` matches any run of leading
directories (including none) and the trailing `/**` requires at least
one further segment, so the pattern matches exactly the paths having
`dir` as a non-final segment. -/
def matchesRecursiveDirGlob (dir : String) (p : String) : Bool :=
  (pathSegments p).dropLast.contains dir

/-- Modelled from the spec: the repository declares a `respectGitignore`
setting (`ConfigurationManager.respectGitignore`, `CONFIG_KEYS`, and the
settings UI which documents "Exclude files and directories listed in
.gitignore from search results"), but no code anywhere in the repository
parses an ignore file.  This is the parse the spec describes: blank
lines and `#`-comments are dropped; a leading `/` is stripped; a pattern
ending in `/` becomes two glob entries (the directory itself and
everything beneath it); a pattern not already rooted with a
recursive-glob prefix gets one prepended. -/
def gitignoreLineToGlobs (line : String) : List String :=
  let rooted := fun (p : String) => if strStartsWith p "**/" then p else "**/" ++ p
  if line = "" || strStartsWith line "#" then []
  else
    let p := if strStartsWith line "/" then strDrop line 1 else line
    if strEndsWith p "/" then
      let d := strDropRight p 1
      [rooted d, rooted (d ++ "/**")]
    else
      [rooted p]

/-- Modelled from the spec: patterns derived from the whole ignore file. -/
def gitignoreToGlobs (content : String) : List String :=
  (jsSplit content '\n').flatMap gitignoreLineToGlobs

/-! ## File tree (`WorkspaceFileManager.buildFileTree` / `renderTree`,
`PromptGenerator.extractOrderedPaths`)

The source represents the tree as a nested plain JS object
(`Record<string, any>`): a mapping from path-segment name to child
node, a leaf being an empty mapping.  A JS object is a finite map whose
keys enumerate in insertion order; it is embedded as an association
list in insertion order with unique keys. -/

inductive FileTree where
  | node : List (String × FileTree) → FileTree

namespace FileTree

/-- The children association list (`Object.entries(node)`). -/
def children : FileTree → List (String × FileTree)
  | .node cs => cs

/-- `node[key]` lookup (first matching key). -/
def findChild : List (String × FileTree) → String → Option FileTree
  | [], _ => none
  | (k, t) :: rest, key => if k = key then some t else findChild rest key

/-- Replace the value of the first occurrence of `key`. -/
def replaceChild : List (String × FileTree) → String → FileTree → List (String × FileTree)
  | [], _, _ => []
  | (k, t) :: rest, key, v =>
    if k = key then (key, v) :: rest else (k, t) :: replaceChild rest key v

/-- `node[key] = v`: update in place when present, append when absent
(JS property-insertion order). -/
def setChild (cs : List (String × FileTree)) (key : String) (v : FileTree) :
    List (String × FileTree) :=
  match findChild cs key with
  | some _ => replaceChild cs key v
  | none => cs ++ [(key, v)]

end FileTree

/-- The inner loop of `buildFileTree`: walk `parts`, creating an empty
child at each missing level (`if (!current[part]) current[part] = {}`)
and descending into it. -/
def addPath : List String → FileTree → FileTree
  | [], t => t
  | part :: parts, .node cs =>
    let sub := match FileTree.findChild cs part with
      | some u => u
      | none => .node []
    .node (FileTree.setChild cs part (addPath parts sub))

/-- One insertion-sort step on a children list, ordered by key
(JS `Object.keys(obj).sort()` default ordinal string compare). -/
def insertPair (x : String × FileTree) : List (String × FileTree) → List (String × FileTree)
  | [] => [x]
  | y :: ys => if strLe x.1 y.1 then x :: y :: ys else y :: insertPair x ys

/-- Sort a children list by key. -/
def sortPairs : List (String × FileTree) → List (String × FileTree)
  | [] => []
  | x :: xs => insertPair x (sortPairs xs)

mutual
/-- `sortObjectKeys` from `buildFileTree`: rebuild the tree with the
keys at every level in ascending order. -/
def sortObjectKeys : FileTree → FileTree
  | .node cs => .node (sortPairs (sortChildren cs))

/-- Recursively sort every child tree of a children list. -/
def sortChildren : List (String × FileTree) → List (String × FileTree)
  | [] => []
  | (k, t) :: rest => (k, sortObjectKeys t) :: sortChildren rest
end

/-- Relative path and separator split applied to each input path by
`buildFileTree` (`path.relative` when absolute and under the root,
then `split(path.sep)` — unfiltered). -/
def relParts (rootPath filePath : String) : List String :=
  let relativePath :=
    if isAbsolute filePath && strStartsWith filePath rootPath then
      pathRelative rootPath filePath
    else filePath
  jsSplit relativePath '/'

/-- `WorkspaceFileManager.buildFileTree`: fold every input path into the
nested mapping (the input `Set<string>` is modelled as the list of its
elements in iteration order), then sort all keys recursively. -/
def buildFileTree (filePaths : List String) (rootPath : String) : FileTree :=
  sortObjectKeys
    (filePaths.foldl (fun tree filePath => addPath (relParts rootPath filePath) tree)
      (.node []))

mutual
/-- `WorkspaceFileManager.renderTree`: box-drawing rendering.  The
`level` argument is carried exactly as in the source (it only tracks
depth); `pref` is the source's `prefix` parameter (the name is reserved
in Lean). -/
def renderTree (t : FileTree) (level : Nat) (pref : String) : String :=
  match t with
  | .node cs => renderEntries cs level pref

/-- The `entries.forEach` loop of `renderTree`; `isLast` holds exactly
for the final entry. -/
def renderEntries (entries : List (String × FileTree)) (level : Nat) (pref : String) : String :=
  match entries with
  | [] => ""
  | (name, childTree) :: rest =>
    let isLast := rest.isEmpty
    let linePref := if isLast then "└── " else "├── "
    let childPref := if isLast then "    " else "│   "
    pref ++ linePref ++ name ++ "\n" ++
      (if (FileTree.children childTree).length > 0 then
        renderTree childTree (level + 1) (pref ++ childPref)
      else "") ++
      renderEntries rest level pref
end

/-- Insertion step for sorting the per-key path blocks of
`extractOrderedPaths` by key. -/
def insertBlock (x : String × List String) :
    List (String × List String) → List (String × List String)
  | [] => [x]
  | y :: ys => if strLe x.1 y.1 then x :: y :: ys else y :: insertBlock x ys

/-- Sort per-key path blocks by key (`Object.keys(node).sort()`). -/
def sortBlocks : List (String × List String) → List (String × List String)
  | [] => []
  | x :: xs => insertBlock x (sortBlocks xs)

mutual
/-- `extractOrderedPaths` from `PromptGenerator._processFiles`: walk the
tree in ascending key order, pushing the absolute path of every leaf
(empty mapping) before recursing into it.  The source's
`for (const key of Object.keys(node).sort())` loop is realized by
computing each key's contribution (one block) and concatenating the
blocks in ascending key order; each iteration of the source loop
depends only on its own key and child. -/
def extractOrderedPaths (rootPath : String) (t : FileTree) (currentPath : String) :
    List String :=
  match t with
  | .node cs => (sortBlocks (extractBlocks rootPath cs currentPath)).flatMap Prod.snd

/-- The per-key contributions of one node's loop: for key `key` with
subtree `childTree`, the leaf path (when the child is an empty mapping)
followed by the recursive traversal of the child. -/
def extractBlocks (rootPath : String) (entries : List (String × FileTree))
    (currentPath : String) : List (String × List String) :=
  match entries with
  | [] => []
  | (key, childTree) :: rest =>
    let newPath := if currentPath = "" then key else currentPath ++ "/" ++ key
    (key,
      (if (FileTree.children childTree).length = 0 then
        [if isAbsolute newPath then newPath else pathJoin rootPath newPath]
      else []) ++
        extractOrderedPaths rootPath childTree newPath) ::
      extractBlocks rootPath rest currentPath
end

/-- Chain membership: `hasChain t [k₁, …, kₙ]` holds when descending
through keys `k₁ … kₙ` from the root stays inside the tree.  The chains
of a tree are exactly the data the sorted form retains. -/
def hasChain : FileTree → List String → Bool
  | _, [] => true
  | .node cs, k :: ks =>
    match FileTree.findChild cs k with
    | some t => hasChain t ks
    | none => false

/-- Well-formedness of the JS-object embedding: keys are unique at every
level (a JS object cannot have duplicate keys). -/
inductive WF : FileTree → Prop
  | node (cs : List (String × FileTree)) :
      (cs.map Prod.fst).Nodup → (∀ kt ∈ cs, WF kt.2) → WF (.node cs)

/-! ### Lemmas about child lookup and update -/

namespace FileTree

theorem findChild_eq_none_iff (cs : List (String × FileTree)) (k : String) :
    findChild cs k = none ↔ k ∉ cs.map Prod.fst := by
  induction cs with
  | nil => simp [findChild]
  | cons c rest ih =>
    obtain ⟨k', t⟩ := c
    by_cases h : k' = k
    · subst h
      simp [findChild]
    · simp only [findChild, if_neg h, ih]
      simp only [List.map_cons, List.mem_cons]
      constructor
      · intro hnot
        intro hmem
        rcases hmem with h' | h'
        · exact h h'.symm
        · exact hnot h'
      · intro hnot h'
        exact hnot (.inr h')

theorem findChild_eq_some_mem {cs : List (String × FileTree)} {k : String} {t : FileTree}
    (h : findChild cs k = some t) : (k, t) ∈ cs := by
  induction cs with
  | nil => simp [findChild] at h
  | cons c rest ih =>
    obtain ⟨k', t'⟩ := c
    by_cases hk : k' = k
    · subst hk
      simp [findChild] at h
      simp [h]
    · simp [findChild, hk] at h
      simp [ih h]

theorem map_fst_replaceChild (cs : List (String × FileTree)) (key : String) (v : FileTree) :
    (replaceChild cs key v).map Prod.fst = cs.map Prod.fst := by
  induction cs with
  | nil => rfl
  | cons c rest ih =>
    obtain ⟨k', t'⟩ := c
    by_cases h : k' = key <;> simp [replaceChild, h, ih]

theorem mem_replaceChild {x : String × FileTree} {cs : List (String × FileTree)}
    {key : String} {v : FileTree} (h : x ∈ replaceChild cs key v) :
    x = (key, v) ∨ x ∈ cs := by
  induction cs with
  | nil => simp [replaceChild] at h
  | cons c rest ih =>
    obtain ⟨k', t'⟩ := c
    by_cases hk : k' = key
    · simp [replaceChild, hk] at h
      rcases h with h | h
      · exact .inl h
      · exact .inr (by simp [h])
    · simp [replaceChild, hk] at h
      rcases h with h | h
      · exact .inr (by simp [h])
      · rcases ih h with h' | h'
        · exact .inl h'
        · exact .inr (by simp [h'])

theorem findChild_replaceChild (cs : List (String × FileTree)) (key : String)
    (v : FileTree) (k : String) (hsome : (findChild cs key).isSome) :
    findChild (replaceChild cs key v) k =
      if k = key then some v else findChild cs k := by
  induction cs with
  | nil => simp [findChild] at hsome
  | cons c rest ih =>
    obtain ⟨k', t'⟩ := c
    by_cases hk : k' = key
    · subst hk
      by_cases hkk : k' = k
      · subst hkk
        simp [replaceChild, findChild]
      · simp [replaceChild, findChild, hkk, Ne.symm hkk]
    · have hsome' : (findChild rest key).isSome := by
        simpa [findChild, hk] using hsome
      by_cases hkk : k' = k
      · subst hkk
        simp [replaceChild, hk, findChild, Ne.symm hk]
      · simp [replaceChild, hk, findChild, hkk, ih hsome']

theorem findChild_append (l₁ l₂ : List (String × FileTree)) (k : String) :
    findChild (l₁ ++ l₂) k =
      match findChild l₁ k with
      | some t => some t
      | none => findChild l₂ k := by
  induction l₁ with
  | nil => simp [findChild]
  | cons c rest ih =>
    obtain ⟨k', t'⟩ := c
    by_cases h : k' = k <;> simp [findChild, h, ih]

theorem findChild_setChild (cs : List (String × FileTree)) (key : String)
    (v : FileTree) (k : String) :
    findChild (setChild cs key v) k = if k = key then some v else findChild cs k := by
  unfold setChild
  cases h : findChild cs key with
  | some t =>
    simpa [h] using findChild_replaceChild cs key v k (by simp [h])
  | none =>
    rw [findChild_append]
    by_cases hk : k = key
    · subst hk
      simp [h, findChild]
    · cases h' : findChild cs k <;> simp [findChild, hk, h', Ne.symm hk]

theorem map_fst_setChild (cs : List (String × FileTree)) (key : String) (v : FileTree) :
    (setChild cs key v).map Prod.fst =
      if (findChild cs key).isSome then cs.map Prod.fst else cs.map Prod.fst ++ [key] := by
  unfold setChild
  cases h : findChild cs key <;> simp [map_fst_replaceChild, h]

theorem mem_setChild {x : String × FileTree} {cs : List (String × FileTree)}
    {key : String} {v : FileTree} (h : x ∈ setChild cs key v) :
    x = (key, v) ∨ x ∈ cs := by
  unfold setChild at h
  cases hf : findChild cs key with
  | some t =>
    rw [hf] at h
    exact mem_replaceChild h
  | none =>
    rw [hf] at h
    rcases List.mem_append.1 h with h' | h'
    · exact .inr h'
    · exact .inl (by simpa using h')

end FileTree

/-! ### `addPath` preserves well-formedness and adds exactly the
prefixes of the inserted part list as chains -/

theorem WF_empty : WF (.node []) := WF.node [] (by simp) (by simp)

theorem WF_addPath (parts : List String) (t : FileTree) (h : WF t) :
    WF (addPath parts t) := by
  induction parts generalizing t with
  | nil => simpa [addPath] using h
  | cons part rest ih =>
    obtain ⟨cs⟩ := t
    rcases h with ⟨_, hnd, hch⟩
    refine WF.node _ ?_ ?_
    · rw [FileTree.map_fst_setChild]
      split
      · exact hnd
      · next hnone =>
        refine List.Nodup.append hnd (by simp) ?_
        simp only [Option.isSome_iff_exists] at hnone
        push_neg at hnone
        have : FileTree.findChild cs part = none := by
          cases h' : FileTree.findChild cs part with
          | none => rfl
          | some u => exact absurd h' (hnone u)
        rw [FileTree.findChild_eq_none_iff] at this
        simp [List.disjoint_left, this]
    · intro kt hkt
      rcases FileTree.mem_setChild hkt with h' | h'
      · subst h'
        apply ih
        cases h' : FileTree.findChild cs part with
        | some u =>
          simp only [h']
          exact hch _ (FileTree.findChild_eq_some_mem h')
        | none =>
          simp only [h']
          exact WF_empty
      · exact hch _ h'

theorem hasChain_addPath (c parts : List String) (t : FileTree) :
    hasChain (addPath parts t) c = (hasChain t c || c.isPrefixOf parts) := by
  induction c generalizing parts t with
  | nil => simp [hasChain]
  | cons k ks ih =>
    cases parts with
    | nil => simp [addPath, List.isPrefixOf]
    | cons part rest =>
      obtain ⟨cs⟩ := t
      by_cases hk : k = part
      · subst hk
        simp only [addPath, hasChain, FileTree.findChild_setChild, if_true]
        rw [ih]
        cases h' : FileTree.findChild cs k with
        | some u =>
          simp [hasChain, h', List.isPrefixOf]
        | none =>
          cases ks with
          | nil => simp [hasChain, h', List.isPrefixOf]
          | cons k' ks' => simp [hasChain, h', List.isPrefixOf, FileTree.findChild]
      · simp only [addPath, hasChain, FileTree.findChild_setChild, if_neg hk]
        have : (k :: ks).isPrefixOf (part :: rest) = false := by
          simp [List.isPrefixOf, hk]
        rw [this]
        cases h' : FileTree.findChild cs k <;> simp [h']

/-! ### Sorting lemmas -/

theorem insertPair_perm (x : String × FileTree) (l : List (String × FileTree)) :
    List.Perm (insertPair x l) (x :: l) := by
  induction l with
  | nil => simp [insertPair]
  | cons y ys ih =>
    simp only [insertPair]
    split
    · exact List.Perm.refl _
    · exact ((ih.cons y).trans (List.Perm.swap x y ys)).symm.symm

theorem sortPairs_perm (l : List (String × FileTree)) : List.Perm (sortPairs l) l := by
  induction l with
  | nil => simp [sortPairs]
  | cons x xs ih => exact (insertPair_perm x (sortPairs xs)).trans (ih.cons x)

theorem pairwise_insertPair (x : String × FileTree) {l : List (String × FileTree)}
    (h : l.Pairwise (fun a b => strLe a.1 b.1 = true)) :
    (insertPair x l).Pairwise (fun a b => strLe a.1 b.1 = true) := by
  induction l with
  | nil => simp [insertPair]
  | cons y ys ih =>
    rcases List.pairwise_cons.1 h with ⟨hy, hys⟩
    simp only [insertPair]
    split
    · next hx =>
      refine List.pairwise_cons.2 ⟨?_, h⟩
      intro z hz
      rcases List.mem_cons.1 hz with h' | h'
      · exact h' ▸ hx
      · exact strLe_trans hx (hy z h')
    · next hx =>
      have hx' : strLe x.1 y.1 = false := by simpa using hx
      refine List.pairwise_cons.2 ⟨?_, ih hys⟩
      intro z hz
      rcases List.mem_cons.1 ((insertPair_perm x ys).mem_iff.1 hz) with h' | h'
      · exact h' ▸ strLe_total hx'
      · exact hy z h'

theorem pairwise_sortPairs (l : List (String × FileTree)) :
    (sortPairs l).Pairwise (fun a b => strLe a.1 b.1 = true) := by
  induction l with
  | nil => simp [sortPairs]
  | cons x xs ih => exact pairwise_insertPair x ih

theorem map_fst_sortChildren (cs : List (String × FileTree)) :
    (sortChildren cs).map Prod.fst = cs.map Prod.fst := by
  induction cs with
  | nil => rfl
  | cons c rest ih =>
    obtain ⟨k, t⟩ := c
    simp [sortChildren, ih]

theorem findChild_sortChildren (cs : List (String × FileTree)) (k : String) :
    FileTree.findChild (sortChildren cs) k =
      (FileTree.findChild cs k).map sortObjectKeys := by
  induction cs with
  | nil => simp [sortChildren, FileTree.findChild]
  | cons c rest ih =>
    obtain ⟨k', t⟩ := c
    by_cases h : k' = k <;> simp [sortChildren, FileTree.findChild, h, ih]

theorem findChild_perm {l l' : List (String × FileTree)} (p : List.Perm l l')
    (hnd : (l.map Prod.fst).Nodup) (k : String) :
    FileTree.findChild l k = FileTree.findChild l' k := by
  induction p with
  | nil => rfl
  | cons x p ih =>
    obtain ⟨kx, tx⟩ := x
    simp only [List.map_cons, List.nodup_cons] at hnd
    by_cases h : kx = k <;> simp [FileTree.findChild, h, ih hnd.2]
  | swap x y l =>
    obtain ⟨kx, tx⟩ := x
    obtain ⟨ky, ty⟩ := y
    have hne : ky ≠ kx := by
      intro h
      subst h
      simp at hnd
    by_cases h1 : ky = k
    · subst h1
      simp [FileTree.findChild, Ne.symm hne, hne]
    · by_cases h2 : kx = k <;> simp [FileTree.findChild, h1, h2]
  | trans p₁ p₂ ih₁ ih₂ =>
    have hnd' := ((p₁.map Prod.fst).nodup_iff).1 hnd
    exact (ih₁ hnd).trans (ih₂ hnd')

theorem findChild_isSome_iff {cs : List (String × FileTree)} {k : String} :
    (FileTree.findChild cs k).isSome ↔ k ∈ cs.map Prod.fst := by
  cases h : FileTree.findChild cs k with
  | none =>
    simp only [Option.isSome_none, Bool.false_eq_true, false_iff]
    exact (FileTree.findChild_eq_none_iff cs k).1 h
  | some t =>
    simp only [Option.isSome_some, true_iff]
    by_contra hmem
    rw [← FileTree.findChild_eq_none_iff] at hmem
    simp [hmem] at h

/-- Two key-sorted children lists with unique keys and the same lookup
function are equal. -/
theorem eq_of_sorted_of_findChild :
    ∀ (d₁ d₂ : List (String × FileTree)),
      d₁.Pairwise (fun a b => strLe a.1 b.1 = true) →
      d₂.Pairwise (fun a b => strLe a.1 b.1 = true) →
      (d₁.map Prod.fst).Nodup → (d₂.map Prod.fst).Nodup →
      (∀ k, FileTree.findChild d₁ k = FileTree.findChild d₂ k) → d₁ = d₂ := by
  intro d₁
  induction d₁ with
  | nil =>
    intro d₂ _ _ _ _ hf
    cases d₂ with
    | nil => rfl
    | cons c rest =>
      obtain ⟨k, v⟩ := c
      have := hf k
      simp [FileTree.findChild] at this
  | cons c r₁ ih =>
    obtain ⟨k₁, v₁⟩ := c
    intro d₂ hs₁ hs₂ hn₁ hn₂ hf
    cases d₂ with
    | nil =>
      have := hf k₁
      simp [FileTree.findChild] at this
    | cons c₂ r₂ =>
      obtain ⟨k₂, v₂⟩ := c₂
      have hk₁mem : k₁ ∈ ((k₂, v₂) :: r₂).map Prod.fst := by
        rw [← findChild_isSome_iff, ← hf k₁]
        simp [FileTree.findChild]
      have hk₂mem : k₂ ∈ ((k₁, v₁) :: r₁).map Prod.fst := by
        rw [← findChild_isSome_iff, hf k₂]
        simp [FileTree.findChild]
      have hle₁ : strLe k₁ k₂ = true := by
        have h' : k₂ = k₁ ∨ ∃ x, (k₂, x) ∈ r₁ := by simpa using hk₂mem
        rcases h' with h | ⟨vz, hz⟩
        · exact strLe_of_eq h.symm
        · exact (List.pairwise_cons.1 hs₁).1 (k₂, vz) hz
      have hle₂ : strLe k₂ k₁ = true := by
        have h' : k₁ = k₂ ∨ ∃ x, (k₁, x) ∈ r₂ := by simpa using hk₁mem
        rcases h' with h | ⟨vz, hz⟩
        · exact strLe_of_eq h.symm
        · exact (List.pairwise_cons.1 hs₂).1 (k₁, vz) hz
      have hkeq : k₁ = k₂ := strLe_antisymm hle₁ hle₂
      subst hkeq
      have hveq : v₁ = v₂ := by
        have := hf k₁
        simpa [FileTree.findChild] using this
      subst hveq
      have hn₁' : (r₁.map Prod.fst).Nodup := (List.nodup_cons.1 (by simpa using hn₁)).2
      have hn₂' : (r₂.map Prod.fst).Nodup := (List.nodup_cons.1 (by simpa using hn₂)).2
      have hk₁r₁ : k₁ ∉ r₁.map Prod.fst := (List.nodup_cons.1 (by simpa using hn₁)).1
      have hk₁r₂ : k₁ ∉ r₂.map Prod.fst := (List.nodup_cons.1 (by simpa using hn₂)).1
      have hftails : ∀ k, FileTree.findChild r₁ k = FileTree.findChild r₂ k := by
        intro k
        by_cases hk : k = k₁
        · subst hk
          rw [(FileTree.findChild_eq_none_iff r₁ k).2 hk₁r₁,
              (FileTree.findChild_eq_none_iff r₂ k).2 hk₁r₂]
        · have hne : k₁ ≠ k := fun h => hk h.symm
          have := hf k
          simpa [FileTree.findChild, hne] using this
      rw [ih r₂ (List.pairwise_cons.1 hs₁).2 (List.pairwise_cons.1 hs₂).2
        hn₁' hn₂' hftails]

/-! ### The sorted tree is determined by the chain set -/

theorem sizeOf_findChild {cs : List (String × FileTree)} {k : String} {u : FileTree}
    (h : FileTree.findChild cs k = some u) : sizeOf u < sizeOf (FileTree.node cs) := by
  have hm := FileTree.findChild_eq_some_mem h
  have := List.sizeOf_lt_of_mem hm
  have hp : sizeOf (k, u) = 1 + sizeOf k + sizeOf u := rfl
  simp only [FileTree.node.sizeOf_spec]
  omega

theorem hasChain_node_cons (cs : List (String × FileTree)) (k : String) (ks : List String) :
    hasChain (.node cs) (k :: ks) =
      match FileTree.findChild cs k with
      | some t => hasChain t ks
      | none => false := rfl

theorem hasChain_node_single (cs : List (String × FileTree)) (k : String) :
    hasChain (.node cs) [k] = (FileTree.findChild cs k).isSome := by
  rw [hasChain_node_cons]
  cases h : FileTree.findChild cs k <;> simp [hasChain]

/-- Two well-formed trees with the same chains have the same
recursively-sorted form: `sortObjectKeys` retains exactly the chain
set of a tree. -/
theorem sortObjectKeys_eq_of_hasChain :
    ∀ (n : Nat) (t₁ t₂ : FileTree), sizeOf t₁ ≤ n → WF t₁ → WF t₂ →
      (∀ c, hasChain t₁ c = hasChain t₂ c) →
      sortObjectKeys t₁ = sortObjectKeys t₂ := by
  intro n
  induction n with
  | zero =>
    intro t₁ t₂ hsz _ _ _
    obtain ⟨cs₁⟩ := t₁
    simp [FileTree.node.sizeOf_spec] at hsz
  | succ n ih =>
    intro t₁ t₂ hsz hw₁ hw₂ hch
    obtain ⟨cs₁⟩ := t₁
    obtain ⟨cs₂⟩ := t₂
    rcases hw₁ with ⟨_, hnd₁, hwch₁⟩
    rcases hw₂ with ⟨_, hnd₂, hwch₂⟩
    simp only [sortObjectKeys]
    congr 1
    have hnd₁' : ((sortChildren cs₁).map Prod.fst).Nodup := by
      rw [map_fst_sortChildren]; exact hnd₁
    have hnd₂' : ((sortChildren cs₂).map Prod.fst).Nodup := by
      rw [map_fst_sortChildren]; exact hnd₂
    have hnds₁ : ((sortPairs (sortChildren cs₁)).map Prod.fst).Nodup :=
      (((sortPairs_perm (sortChildren cs₁)).map Prod.fst).nodup_iff).2 hnd₁'
    have hnds₂ : ((sortPairs (sortChildren cs₂)).map Prod.fst).Nodup :=
      (((sortPairs_perm (sortChildren cs₂)).map Prod.fst).nodup_iff).2 hnd₂'
    refine eq_of_sorted_of_findChild _ _ (pairwise_sortPairs _) (pairwise_sortPairs _)
      hnds₁ hnds₂ ?_
    intro k
    rw [findChild_perm (sortPairs_perm (sortChildren cs₁)) hnds₁ k,
        findChild_perm (sortPairs_perm (sortChildren cs₂)) hnds₂ k,
        findChild_sortChildren, findChild_sortChildren]
    cases hf₁ : FileTree.findChild cs₁ k with
    | none =>
      cases hf₂ : FileTree.findChild cs₂ k with
      | none => rfl
      | some u₂ =>
        have h1 := hch [k]
        rw [hasChain_node_single, hasChain_node_single, hf₁, hf₂] at h1
        exact absurd h1 (by simp)
    | some u₁ =>
      cases hf₂ : FileTree.findChild cs₂ k with
      | none =>
        have h1 := hch [k]
        rw [hasChain_node_single, hasChain_node_single, hf₁, hf₂] at h1
        exact absurd h1 (by simp)
      | some u₂ =>
        have hsz₁ : sizeOf u₁ ≤ n := by
          have := sizeOf_findChild hf₁
          omega
        have heq : sortObjectKeys u₁ = sortObjectKeys u₂ := by
          refine ih u₁ u₂ hsz₁ (hwch₁ _ (FileTree.findChild_eq_some_mem hf₁))
            (hwch₂ _ (FileTree.findChild_eq_some_mem hf₂)) ?_
          intro c
          have := hch (k :: c)
          rwa [hasChain_node_cons, hasChain_node_cons, hf₁, hf₂] at this
        simp [heq]

/-! ### Chains of the built tree -/

theorem WF_buildRaw (filePaths : List String) (rootPath : String) :
    WF (filePaths.foldl (fun tree filePath => addPath (relParts rootPath filePath) tree)
      (.node [])) := by
  rw [← List.foldr_reverse]
  induction filePaths.reverse with
  | nil => exact WF_empty
  | cons p rest ih => exact WF_addPath _ _ ih

theorem hasChain_foldl (filePaths : List String) (rootPath : String) (t : FileTree)
    (c : List String) :
    hasChain (filePaths.foldl (fun tree filePath => addPath (relParts rootPath filePath) tree) t) c
      = (hasChain t c || filePaths.any (fun p => c.isPrefixOf (relParts rootPath p))) := by
  induction filePaths generalizing t with
  | nil => simp
  | cons p rest ih =>
    simp only [List.foldl_cons, List.any_cons]
    rw [ih, hasChain_addPath]
    cases hasChain t c <;> simp [Bool.or_comm, Bool.or_assoc, Bool.or_left_comm]

/-- `buildFileTree` is a function of the input path set alone: two
iteration orders (and multiplicities) of the same set of paths build the
same sorted tree. -/
theorem buildFileTree_eq_of_mem (l₁ l₂ : List String) (root : String)
    (h : ∀ p, p ∈ l₁ ↔ p ∈ l₂) :
    buildFileTree l₁ root = buildFileTree l₂ root := by
  unfold buildFileTree
  apply sortObjectKeys_eq_of_hasChain
    (sizeOf (l₁.foldl (fun tree filePath => addPath (relParts root filePath) tree) (.node [])))
    _ _ le_rfl (WF_buildRaw l₁ root) (WF_buildRaw l₂ root)
  intro c
  rw [hasChain_foldl, hasChain_foldl]
  have hany : l₁.any (fun p => c.isPrefixOf (relParts root p)) =
      l₂.any (fun p => c.isPrefixOf (relParts root p)) := by
    apply Bool.eq_iff_iff.2
    simp only [List.any_eq_true]
    constructor
    · rintro ⟨p, hp, hf⟩
      exact ⟨p, (h p).1 hp, hf⟩
    · rintro ⟨p, hp, hf⟩
      exact ⟨p, (h p).2 hp, hf⟩
  rw [hany]

/-! ## Prompt assembler (`PromptGenerator.ts`)

`vscode.workspace.fs` is modelled by a map from path to stat/read
results (`FileModel`), `vscode.workspace.asRelativePath` by a function
`rel`, and the `fast-glob` folder enumeration by a function
`folderScan` from folder path to entries (path and stat size). -/

/-- A mention as the webview sends it (`{id, label, type}`). -/
structure Mention where
  id : String
  label : String
  type : String
deriving DecidableEq, Repr

/-- What the file system holds for one path: the result of
`vscode.workspace.fs.stat` (the `size` field, or `.error` when the call
throws) and of `vscode.workspace.fs.readFile`. -/
structure FileModel where
  statSize : Except Unit Nat
  readData : Except Unit String
deriving Repr

/-- One element of the `fileContents` array: `{path, content}`. -/
structure Entry where
  path : String
  content : String
deriving DecidableEq, Repr

/-- `WorkspaceFileManager.readFile`: a failing read is caught
(`console.error`) and becomes the empty string. -/
def readFile (fs : String → FileModel) (filePath : String) : String :=
  match (fs filePath).readData with
  | .ok s => s
  | .error _ => ""

/-- Decimal rendering of a hundredths value as JS renders the number
`r / 100` (trailing zeros dropped, integer without a point). -/
def formatHundredths (r : Nat) : String :=
  if r % 100 = 0 then toString (r / 100)
  else if r % 10 = 0 then toString (r / 100) ++ "." ++ toString ((r % 100) / 10)
  else toString (r / 100) ++ "." ++ (if r % 100 < 10 then "0" else "") ++ toString (r % 100)

/-- `Math.round(size / BYTES_PER_MB * PRECISION_FACTOR)`, modelled by
exact rational rounding (half up; the source computes it in binary64,
which agrees on the file sizes representable there). -/
def roundedHundredthsMB (size : Nat) : Nat :=
  (size * PRECISION_FACTOR + BYTES_PER_MB / 2) / BYTES_PER_MB

/-- The `File too large` placeholder of `_processFileForContent`. -/
def tooLargePlaceholder (size : Nat) (maxFileSizeMB : Nat) : String :=
  "```\nFile too large (" ++ formatHundredths (roundedHundredthsMB size) ++
    "MB). Max size: " ++ toString maxFileSizeMB ++ "MB\n```"

/-- `PromptGenerator._processFileForContent`: one file's contribution to
`fileContents`.  Skips duplicates and excluded files; a stat failure is
caught and yields the `Error reading file` placeholder; an oversized
file yields the `File too large` placeholder; otherwise the content is
read (`readFile` returns `""` when the read itself fails) and wrapped in
a fenced block, or the `Empty file` placeholder when it is empty.
Returns the entry pushed (if any) and the updated `processedPaths`. -/
def processFileForContent (fs : String → FileModel) (rel : String → String)
    (maxFileSizeMB : Nat) (filePath : String) (processedPaths : List String) :
    Option Entry × List String :=
  if processedPaths.contains filePath then (none, processedPaths)
  else if isExcludedFile filePath then (none, processedPaths)
  else
    let relativePath := rel filePath
    let maxFileSize := maxFileSizeMB * BYTES_PER_MB
    match (fs filePath).statSize with
    | .error _ =>
      (some ⟨relativePath, "```\nError reading file\n```"⟩, filePath :: processedPaths)
    | .ok size =>
      if size > maxFileSize then
        (some ⟨relativePath, tooLargePlaceholder size maxFileSizeMB⟩,
          filePath :: processedPaths)
      else
        let content := readFile fs filePath
        let extension := strDrop (extname filePath) 1
        (some ⟨relativePath,
          if content ≠ "" then "```" ++ extension ++ "\n" ++ content ++ "\n```"
          else "```\nEmpty file\n```"⟩,
          filePath :: processedPaths)

/-- One `Promise.all` task of the content phase of `_processFiles`.  On
the JS event loop every task runs its duplicate/exclusion checks
synchronously when created — before any task's I/O completes, so against
the still-initial `processedPaths` set — then suspends at its first
`await`. -/
def processOne (fs : String → FileModel) (rel : String → String)
    (maxFileSizeMB : Nat) (filePath : String) : Option Entry :=
  (processFileForContent fs rel maxFileSizeMB filePath []).1

/-- The content phase of `_processFiles`: a task per element of
`orderedFilePaths` is created, and each task pushes its entry to the
shared `fileContents` array when its file I/O completes.  `completion`
is the order in which the tasks complete (a permutation of the task
indices), so the entries land in completion order. -/
def runContentTasks (fs : String → FileModel) (rel : String → String)
    (maxFileSizeMB : Nat) (orderedFilePaths : List String) (completion : List Nat) :
    List Entry :=
  completion.filterMap
    (fun i => (orderedFilePaths.get? i).bind (processOne fs rel maxFileSizeMB))

/-- The `processedPaths` set once the content phase has completed: every
non-excluded task path was added (in completion order). -/
def processedAfterContentTasks (orderedFilePaths : List String)
    (completion : List Nat) : List String :=
  completion.filterMap
    (fun i => (orderedFilePaths.get? i).bind
      (fun p => if isExcludedFile p then none else some p))

/-- The size-filter loop of `getFilesFromFolder` (when a nonzero
`maxFileSize` was supplied): oversized entries are dropped and a
`Skipped large file` warning recorded (`Math.round(size / 1024)`,
half up). -/
def sizeFilter (maxFileSize : Nat) :
    List (String × Nat) → List (String × Nat) × List String
  | [] => ([], [])
  | (p, size) :: rest =>
    let (es, ws) := sizeFilter maxFileSize rest
    if size > maxFileSize then
      (es, ("Skipped large file " ++ basenameOf p ++ " (" ++
        toString ((size + BYTES_PER_KB / 2) / BYTES_PER_KB) ++ "KB)") :: ws)
    else ((p, size) :: es, ws)

/-- `WorkspaceFileManager.getFilesFromFolder`: enumerate one folder via
`fast-glob` (`folderScan`, already honoring the ignore patterns) and,
when a size bound is supplied, drop oversized entries with warnings.
The source guards the filter with the truthiness of `maxFileSize`, so a
bound of `0` — like an absent one — filters nothing. -/
def getFilesFromFolder (folderScan : String → List (String × Nat))
    (folderPath : String) (maxFileSize : Option Nat) :
    List (String × Nat) × List String :=
  let entries := folderScan folderPath
  match maxFileSize with
  | none => (entries, [])
  | some m => if m = 0 then (entries, []) else sizeFilter m entries

/-- JS `Set.prototype.add`: append when absent, insertion order kept. -/
def insertUnique (l : List String) (x : String) : List String :=
  if l.contains x then l else l ++ [x]

/-- The mention-resolution phase of `_processFiles`: a `file` mention
adds its path; a `folder` mention adds its path and — via
`_collectFilesInFolder`, unless the folder is excluded — every path of
the folder's recursive scan (no size bound there); a mention of any
other type adds nothing. -/
def collectMentionPaths (folderScan : String → List (String × Nat))
    (excludeHiddenDirectories : Bool) (mentions : List Mention) : List String :=
  mentions.foldl (fun acc m =>
    if m.type = "file" then insertUnique acc m.id
    else if m.type = "folder" then
      let acc' := insertUnique acc m.id
      if isExcludedDirectory m.id excludeHiddenDirectories then acc'
      else
        ((getFilesFromFolder folderScan m.id none).1.map Prod.fst).foldl insertUnique acc'
    else acc) []

/-- `PromptGenerator._processFilesInFolder` for one folder mention:
unless the folder is excluded, scan it with the configured byte bound,
record the scan's warnings, and process each entry sequentially against
the shared `processedPaths` and `fileContents`. -/
def processFilesInFolder (fs : String → FileModel) (rel : String → String)
    (folderScan : String → List (String × Nat)) (excludeHiddenDirectories : Bool)
    (maxFileSizeMB : Nat) (folderPath : String) (processedPaths : List String)
    (fileContents : List Entry) (warnings : List String) :
    List String × List Entry × List String :=
  if isExcludedDirectory folderPath excludeHiddenDirectories then
    (processedPaths, fileContents, warnings)
  else
    let scanned := getFilesFromFolder folderScan folderPath
      (some (maxFileSizeMB * BYTES_PER_MB))
    let step := scanned.1.foldl
      (fun (st : List String × List Entry) e =>
        let r := processFileForContent fs rel maxFileSizeMB e.1 st.1
        (r.2, st.2 ++ r.1.toList))
      (processedPaths, fileContents)
    (step.1, step.2, warnings ++ scanned.2)

/-- `PromptGenerator._processFiles` end to end: resolve mentions to the
path set (early return on an empty set), build and render the tree,
extract the ordered leaf paths, run the content tasks (`completion` is
the read-completion order), run the per-folder content phase (those
tasks are also issued with `Promise.all`; their completion order is
modelled as the mention order, which no settled claim depends on), and
append the warnings entry when any warning was collected. -/
def processFilesResult (fs : String → FileModel) (rel : String → String)
    (folderScan : String → List (String × Nat)) (excludeHiddenDirectories : Bool)
    (maxFileSizeMB : Nat) (mentions : List Mention) (rootPath : String)
    (completion : List Nat) : String × List Entry :=
  let allFilePaths := collectMentionPaths folderScan excludeHiddenDirectories mentions
  if allFilePaths.length = 0 then ("", [])
  else
    let tree := buildFileTree allFilePaths rootPath
    let fileMapStr := renderTree tree 0 ""
    let orderedFilePaths := extractOrderedPaths rootPath tree ""
    let fileContents := runContentTasks fs rel maxFileSizeMB orderedFilePaths completion
    let processedPaths := processedAfterContentTasks orderedFilePaths completion
    let folderMentions := mentions.filter (fun m => m.type = "folder")
    let final := folderMentions.foldl
      (fun (st : List String × List Entry × List String) m =>
        processFilesInFolder fs rel folderScan excludeHiddenDirectories maxFileSizeMB
          m.id st.1 st.2.1 st.2.2)
      (processedPaths, fileContents, [])
    let withWarnings :=
      if final.2.2.length > 0 then
        final.2.1 ++
          [⟨"_system/warnings.txt", "```\n" ++ String.intercalate "\n" final.2.2 ++ "\n```"⟩]
      else final.2.1
    (fileMapStr, withWarnings)

/-! ## Workspace folder list (`WorkspaceFileManager.getWorkspaceFolders`) -/

/-- A `WorkspaceFolder` record (`src/utils/types.ts`). -/
structure WSFolder where
  uri : String
  path : String
  name : String
  relativePath : String
deriving DecidableEq, Repr

/-- `WorkspaceFileManager.getWorkspaceFolders`: the cached folder map's
values plus, when at least one workspace root folder exists (modelled as
`workspaceRoot = some (uri, fsPath)`), one entry named `"root"`
unshifted at the front and one named `"./"` pushed at the back, both
with the root's uri and path and relative path `"./"`. -/
def getWorkspaceFolders (cachedFolders : List WSFolder)
    (workspaceRoot : Option (String × String)) : List WSFolder :=
  match workspaceRoot with
  | none => cachedFolders
  | some root =>
    ⟨root.1, root.2, "root", "./"⟩ :: (cachedFolders ++ [⟨root.1, root.2, "./", "./"⟩])

/-! ## Cache refresh (`WorkspaceFileManager.refreshCache`)

The two path-keyed caches are modelled by their key lists (each map
value — uri, name, relative path — is computed from the key alone).
`refreshCache` clears both maps synchronously, then for every workspace
folder awaits the `fast-glob` call (one suspension point per folder) and
populates that folder's entries; the event-loop lets any other task run
at each suspension point. -/

/-- The two path-keyed caches. -/
structure CacheState where
  filePathCache : List String
  folderPathCache : List String
deriving DecidableEq, Repr

/-- One entry of a scan: its path and whether the stat says directory. -/
structure ScanEntry where
  path : String
  isDirectory : Bool
deriving DecidableEq, Repr

/-- The per-entry population loop of `refreshCache`. -/
def applyScanEntries (st : CacheState) (entries : List ScanEntry) : CacheState :=
  entries.foldl
    (fun st e =>
      if e.isDirectory then { st with folderPathCache := st.folderPathCache ++ [e.path] }
      else { st with filePathCache := st.filePathCache ++ [e.path] })
    st

/-- The cache state another event-loop task observes while `refreshCache`
is suspended at its `k`-th folder's glob `await` (`scans` is the glob
result per workspace folder): both caches were already cleared and the
first `k` folders populated. -/
def refreshCacheMidStates (scans : List (List ScanEntry)) : List CacheState :=
  (List.range scans.length).map
    (fun k => (scans.take k).foldl applyScanEntries ⟨[], []⟩)

/-- The cache state when `refreshCache` returns. -/
def refreshCacheFinal (scans : List (List ScanEntry)) : CacheState :=
  scans.foldl applyScanEntries ⟨[], []⟩

/-! ## Template engine (`TemplateManager.ts`)

A TipTap document as `stringToDocument` builds and `documentToString`
reads it: paragraphs of inline runs, an inline run being plain text or a
typed variable reference (`mention`).  A paragraph's `content` may be
absent (`none`, JS `undefined`) or an (possibly empty) array. -/

/-- An inline run. -/
inductive Inline where
  | text (s : String)
  | mention (id : String)
deriving DecidableEq, Repr

/-- A paragraph node: `content` is `none` when the JS object has no
`content` field at all. -/
structure Paragraph where
  content : Option (List Inline)
deriving DecidableEq, Repr

/-- A document node. -/
structure Doc where
  content : List Paragraph
deriving DecidableEq, Repr

/-- The characters an inline run contributes in `documentToString`:
text verbatim, a mention re-wrapped in double braces. -/
def inlineChars : Inline → List Char
  | .text s => s.data
  | .mention id => '{' :: '{' :: (id.data ++ ['}', '}'])

/-- `TemplateManager.documentToString`: paragraphs in order, each
followed by a newline; a paragraph without a `content` field contributes
the newline alone. -/
def documentToString (doc : Doc) : String :=
  String.mk (doc.content.flatMap (fun p =>
    match p.content with
    | none => ['\n']
    | some runs => runs.flatMap inlineChars ++ ['\n']))

/-- One attempt of the regex `/\x7b\x7b([^}]+)\x7d\x7d/` at the head of the
input: two opening braces, a maximal nonempty run of non-`}` characters,
then two closing braces; returns the variable name and the rest. -/
def tryMatchVar : List Char → Option (List Char × List Char)
  | '{' :: '{' :: rest =>
    let name := rest.takeWhile (fun c => c ≠ '}')
    let rem := rest.dropWhile (fun c => c ≠ '}')
    if name.isEmpty then none
    else
      match rem with
      | '}' :: '}' :: tail => some (name, tail)
      | _ => none
  | _ => none

/-- The leftmost match of the variable regex: the text before it, the
variable name, and the rest after the match. -/
def findVarSplit : List Char → Option (List Char × List Char × List Char)
  | [] => none
  | c :: rest =>
    match tryMatchVar (c :: rest) with
    | some nt => some ([], nt.1, nt.2)
    | none =>
      match findVarSplit rest with
      | some bnt => some (c :: bnt.1, bnt.2.1, bnt.2.2)
      | none => none

theorem tryMatchVar_decomp {cs name tail : List Char}
    (h : tryMatchVar cs = some (name, tail)) :
    cs = '{' :: '{' :: (name ++ '}' :: '}' :: tail) := by
  rw [tryMatchVar.eq_def] at h
  split at h
  · next rest =>
    simp only at h
    split at h
    · exact absurd h (by simp)
    · split at h
      · next heq =>
        simp only [Option.some.injEq, Prod.mk.injEq] at h
        obtain ⟨hn, ht⟩ := h
        subst hn ht
        simp only [List.cons.injEq, true_and]
        conv_lhs => rw [← List.takeWhile_append_dropWhile (fun c => c ≠ '}') rest]
        rw [heq]
      · exact absurd h (by simp)
  · exact absurd h (by simp)

theorem findVarSplit_decomp {cs before name tail : List Char}
    (h : findVarSplit cs = some (before, name, tail)) :
    cs = before ++ '{' :: '{' :: (name ++ '}' :: '}' :: tail) := by
  induction cs generalizing before with
  | nil => simp [findVarSplit] at h
  | cons c rest ih =>
    simp only [findVarSplit] at h
    cases hm : tryMatchVar (c :: rest) with
    | some nt =>
      rw [hm] at h
      simp only [Option.some.injEq, Prod.mk.injEq] at h
      obtain ⟨hb, hn, ht⟩ := h
      subst hb hn ht
      simpa using @tryMatchVar_decomp (c :: rest) nt.1 nt.2 (by rw [hm])
    | none =>
      rw [hm] at h
      cases hf : findVarSplit rest with
      | none => rw [hf] at h; simp at h
      | some bnt =>
        rw [hf] at h
        simp only [Option.some.injEq, Prod.mk.injEq] at h
        obtain ⟨hb, hn, ht⟩ := h
        subst hn ht
        rw [← hb]
        simpa using congrArg (c :: ·) (ih (by simpa using hf))

theorem findVarSplit_tail_lt {cs before name tail : List Char}
    (h : findVarSplit cs = some (before, name, tail)) :
    tail.length < cs.length := by
  have := findVarSplit_decomp h
  subst this
  simp
  omega

/-- The regex scan of one line in `stringToDocument`, structured as a
fuel-indexed loop so it evaluates inside the kernel: alternate plain
text runs (only when nonempty) and variable references, left to right.
Each iteration consumes at least one character, so `fuel = cs.length`
(as `scanLine` passes) never runs out. -/
def scanLineFuel : Nat → List Char → List Inline
  | 0, cs => if cs.isEmpty then [] else [.text (String.mk cs)]
  | fuel + 1, cs =>
    match findVarSplit cs with
    | none => if cs.isEmpty then [] else [.text (String.mk cs)]
    | some bnt =>
      (if bnt.1.isEmpty then [] else [Inline.text (String.mk bnt.1)]) ++
        Inline.mention (String.mk bnt.2.1) :: scanLineFuel fuel bnt.2.2

/-- The regex scan of one line in `stringToDocument`. -/
def scanLine (cs : List Char) : List Inline := scanLineFuel cs.length cs

/-- `TemplateManager.stringToDocument`: the empty template becomes a
document with one empty paragraph; otherwise split on newlines, scan
each line, and keep the paragraph when it has content or when there is
more than one line. -/
def stringToDocument (template : String) : Doc :=
  if template = "" then ⟨[⟨some []⟩]⟩
  else
    let lines := splitChar '\n' template.data
    ⟨lines.filterMap (fun line =>
      let content := scanLine line
      if content.length > 0 ∨ lines.length > 1 then some ⟨some content⟩ else none)⟩

/-- The template strings the round-trip claim ranges over: plain text
and `\x7b\x7bvar\x7d\x7d` tokens with no other special characters.  Plain text
may not contain braces; a variable name is nonempty and contains
neither braces nor a newline. -/
inductive TemplateTok where
  | txt (s : String)
  | var (s : String)
deriving DecidableEq, Repr

/-- Rendering a token list to the template string it denotes. -/
def renderToks : List TemplateTok → String
  | [] => ""
  | .txt s :: rest => s ++ renderToks rest
  | .var s :: rest => "\x7b\x7b" ++ s ++ "\x7d\x7d" ++ renderToks rest

/-- Well-formedness of a token list (the claim's "only plain text and
variable tokens, no other special characters"). -/
def wfToks (toks : List TemplateTok) : Bool :=
  toks.all (fun t =>
    match t with
    | .txt s => s.data.all (fun c => c ≠ '{' ∧ c ≠ '}')
    | .var s => !s.data.isEmpty &&
        s.data.all (fun c => c ≠ '{' ∧ c ≠ '}' ∧ c ≠ '\n'))

/-- The inverse of `splitChar`: join pieces with the separator. -/
def joinChar (sep : Char) : List (List Char) → List Char
  | [] => []
  | [l] => l
  | l :: l₂ :: ls => l ++ sep :: joinChar sep (l₂ :: ls)

/-! ### Round-trip lemmas -/

theorem splitChar_ne_nil (sep : Char) (cs : List Char) : splitChar sep cs ≠ [] := by
  cases cs with
  | nil => simp [splitChar]
  | cons c rest =>
    simp only [splitChar]
    split
    · simp
    · cases h : splitChar sep rest <;> simp

theorem joinChar_splitChar (sep : Char) (cs : List Char) :
    joinChar sep (splitChar sep cs) = cs := by
  induction cs with
  | nil => rfl
  | cons c rest ih =>
    simp only [splitChar]
    split
    · next hc =>
      subst hc
      cases h : splitChar c rest with
      | nil => exact absurd h (splitChar_ne_nil c rest)
      | cons l ls =>
        rw [h] at ih
        cases ls with
        | nil => simpa [joinChar] using ih
        | cons l₂ ls₂ => simpa [joinChar] using ih
    · next hc =>
      cases h : splitChar sep rest with
      | nil => exact absurd h (splitChar_ne_nil sep rest)
      | cons l ls =>
        rw [h] at ih
        cases ls with
        | nil => simpa [joinChar] using ih
        | cons l₂ ls₂ =>
          simp only [joinChar] at ih ⊢
          simpa using ih

theorem flatMap_newline_eq_joinChar (sep : Char) (ls : List (List Char)) (hne : ls ≠ []) :
    ls.flatMap (fun l => l ++ [sep]) = joinChar sep ls ++ [sep] := by
  induction ls with
  | nil => exact absurd rfl hne
  | cons l rest ih =>
    cases rest with
    | nil => simp [joinChar]
    | cons l₂ rest₂ =>
      have hr := ih (by simp)
      calc (l :: l₂ :: rest₂).flatMap (fun l => l ++ [sep])
          = l ++ [sep] ++ (l₂ :: rest₂).flatMap (fun l => l ++ [sep]) := by simp
        _ = l ++ [sep] ++ (joinChar sep (l₂ :: rest₂) ++ [sep]) := by rw [hr]
        _ = (l ++ sep :: joinChar sep (l₂ :: rest₂)) ++ [sep] := by simp
        _ = joinChar sep (l :: l₂ :: rest₂) ++ [sep] := rfl

theorem scanLineFuel_print (fuel : Nat) :
    ∀ cs : List Char, cs.length ≤ fuel →
      (scanLineFuel fuel cs).flatMap inlineChars = cs := by
  induction fuel with
  | zero =>
    intro cs hlen
    have : cs = [] := List.length_eq_zero.1 (Nat.le_zero.1 hlen)
    subst this
    rfl
  | succ fuel ih =>
    intro cs hlen
    simp only [scanLineFuel]
    cases hf : findVarSplit cs with
    | none =>
      cases cs with
      | nil => simp
      | cons c rest => simp [inlineChars]
    | some bnt =>
      obtain ⟨before, name, tail⟩ := bnt
      have hdec := findVarSplit_decomp hf
      have htail : tail.length ≤ fuel := by
        have := congrArg List.length hdec
        simp at this
        omega
      simp only
      cases hb : before with
      | nil =>
        simp only [List.isEmpty_nil, if_true, List.nil_append, List.flatMap_cons,
          inlineChars, ih tail htail]
        rw [hdec, hb]
        simp
      | cons b bs =>
        rw [← hb]
        have hbne : before.isEmpty = false := by rw [hb]; rfl
        simp only [hbne, Bool.false_eq_true, if_false, List.flatMap_append,
          List.flatMap_cons, List.flatMap_nil, inlineChars, ih tail htail]
        rw [hdec]
        simp

theorem scanLine_print (cs : List Char) :
    (scanLine cs).flatMap inlineChars = cs :=
  scanLineFuel_print cs.length cs le_rfl

theorem scanLine_ne_nil {cs : List Char} (h : cs ≠ []) : scanLine cs ≠ [] := by
  unfold scanLine
  cases cs with
  | nil => exact absurd rfl h
  | cons c rest =>
    simp only [List.length_cons, scanLineFuel]
    cases hf : findVarSplit (c :: rest) with
    | none => simp
    | some bnt =>
      cases hb : bnt.1.isEmpty <;> simp

theorem string_data_ne_nil {T : String} (h : T ≠ "") : T.data ≠ [] := by
  intro hd
  apply h
  obtain ⟨d⟩ := T
  simp only at hd
  rw [hd]

theorem string_append_newline (T : String) : T ++ "\n" = String.mk (T.data ++ ['\n']) := by
  obtain ⟨d⟩ := T
  rfl

theorem filterMap_ite_true {α β : Type} (l : List α) (f : α → β) (p : α → Prop)
    [DecidablePred p] (h : ∀ a ∈ l, p a) :
    l.filterMap (fun a => if p a then some (f a) else none) = l.map f := by
  induction l with
  | nil => rfl
  | cons a rest ih =>
    simp only [List.filterMap_cons, if_pos (h a (by simp)), List.map_cons]
    rw [ih (fun b hb => h b (by simp [hb]))]

/-- The round trip appends exactly one newline, for every template. -/
theorem roundtrip_general (T : String) :
    documentToString (stringToDocument T) = T ++ "\n" := by
  by_cases hT : T = ""
  · subst hT
    rfl
  · rw [stringToDocument, if_neg hT, string_append_newline]
    simp only
    cases hs : splitChar '\n' T.data with
    | nil => exact absurd hs (splitChar_ne_nil '\n' T.data)
    | cons l₁ rest =>
      have hjoin : joinChar '\n' (l₁ :: rest) = T.data := by
        rw [← hs]
        exact joinChar_splitChar '\n' T.data
      cases rest with
      | nil =>
        have hl₁ : l₁ = T.data := hjoin
        have hne : (scanLine l₁).length > 0 := by
          have hl1ne : l₁ ≠ [] := by rw [hl₁]; exact string_data_ne_nil hT
          have := scanLine_ne_nil hl1ne
          cases h' : scanLine l₁ with
          | nil => exact absurd h' this
          | cons a b => simp
        simp only [List.filterMap_cons, List.filterMap_nil]
        rw [if_pos (.inl hne)]
        rw [documentToString]
        simp only [List.flatMap_cons, List.flatMap_nil, List.append_nil]
        rw [scanLine_print, hl₁]
      | cons l₂ rest₂ =>
        rw [filterMap_ite_true (l₁ :: l₂ :: rest₂)
          (fun line => (⟨some (scanLine line)⟩ : Paragraph))
          (fun line => (scanLine line).length > 0 ∨ (l₁ :: l₂ :: rest₂).length > 1)
          (fun line _ => .inr (by simp))]
        rw [documentToString]
        simp only [List.flatMap_map]
        simp only [scanLine_print]
        rw [flatMap_newline_eq_joinChar '\n' _ (by simp), hjoin]

/-! ## Claim theorems -/

/-- C1: the content entries of `generatePrompt` do NOT always follow the
canonical tree order — completion order of the concurrent reads leaks
into the output.  For two mentioned files whose canonical (tree) order
is `[/w/a.ts, /w/b.ts]`, the content tasks completing in order `[1, 0]`
push the entries as `[b.ts, a.ts]`, while completing in order `[0, 1]`
yields `[a.ts, b.ts]`: the very same mentions produce differently
ordered content sections, refuting the claim that concurrency never
changes the order. -/
theorem promptgen_completion_order_reorders_entries :
    extractOrderedPaths "/w"
      (buildFileTree
        (collectMentionPaths (fun _ => []) true
          [⟨"/w/a.ts", "a.ts", "file"⟩, ⟨"/w/b.ts", "b.ts", "file"⟩]) "/w") "" =
      ["/w/a.ts", "/w/b.ts"] ∧
    (runContentTasks (fun p => ⟨.ok 1, .ok ("x" ++ p)⟩) (fun p => p) 5
        ["/w/a.ts", "/w/b.ts"] [1, 0]).map Entry.path = ["/w/b.ts", "/w/a.ts"] ∧
    (runContentTasks (fun p => ⟨.ok 1, .ok ("x" ++ p)⟩) (fun p => p) 5
        ["/w/a.ts", "/w/b.ts"] [0, 1]).map Entry.path = ["/w/a.ts", "/w/b.ts"] ∧
    List.Perm [1, 0] (List.range 2) := by
  refine ⟨by decide, by decide, by decide, ?_⟩
  decide

/-- C2 (counterexample): the round trip is not the identity even on a
template of plain text alone: `"a"` comes back as `"a\n"`. -/
theorem template_roundtrip_not_identity :
    wfToks [.txt "a"] = true ∧
    renderToks [.txt "a"] = "a" ∧
    documentToString (stringToDocument "a") = "a\n" ∧
    documentToString (stringToDocument "a") ≠ "a" := by
  refine ⟨by decide, by decide, by decide, by decide⟩

/-- C2 (amended): for every template consisting only of plain text and
variable tokens, the round trip returns the template with exactly one
newline appended: `documentToString (stringToDocument T) = T ++ "\n"`
(`documentToString` ends every paragraph with a newline, and
`stringToDocument` makes one paragraph per line). -/
theorem template_roundtrip_appends_newline (toks : List TemplateTok)
    (_h : wfToks toks = true) :
    documentToString (stringToDocument (renderToks toks)) = renderToks toks ++ "\n" :=
  roundtrip_general (renderToks toks)

/-- C2 (amended) witness at the concrete template `"a {{v}}"`. -/
theorem template_roundtrip_appends_newline_witness :
    documentToString (stringToDocument (renderToks [.txt "a ", .var "v"])) =
      renderToks [.txt "a ", .var "v"] ++ "\n" :=
  template_roundtrip_appends_newline [.txt "a ", .var "v"] (by decide)

/-- C4: the respect-ignore-file setting adds nothing to the scan's
ignore-pattern set.  The spec-modelled parse of a root ignore file
reading `foo` mandates the glob `**/foo`, but
`updateEffectiveExcludedDirs` — the sole producer of the patterns the
scan uses — takes no ignore-file input at all and never emits that
pattern, whichever way the hidden-directory flag is set (the
`respectGitignore` configuration value is read but never consulted by
the scan). -/
theorem ignore_patterns_lack_gitignore_globs (excludeHiddenDirectories : Bool) :
    "**/foo" ∈ gitignoreToGlobs "foo" ∧
    "**/foo" ∉ updateEffectiveExcludedDirs excludeHiddenDirectories := by
  cases excludeHiddenDirectories <;> exact ⟨by decide, by decide⟩

/-- C7 (counterexample): `/w/node_modules` has `node_modules` as a path
segment, yet `isExcludedFile` returns `false` for it (the loop skips the
final segment, the file name) and the scan's `**/node_modules/**`
pattern does not match it (the trailing `/**` wants a further segment),
so the claim's "every path containing the segment" fails. -/
theorem node_modules_final_segment_escapes :
    "node_modules" ∈ pathSegments "/w/node_modules" ∧
    isExcludedFile "/w/node_modules" = false ∧
    matchesRecursiveDirGlob "node_modules" "/w/node_modules" = false := by
  refine ⟨by decide, by decide, by decide⟩

/-- C7 (amended): a path with `node_modules` as a NON-final segment is
excluded everywhere: by `isExcludedFile`, by `isExcludedDirectory`
(under either hidden-directory setting), and by the scan's
`**/node_modules/**` ignore pattern, which the pattern set always
contains; `isExcludedDirectory` moreover excludes every path having
`node_modules` as any segment, the final one included. -/
theorem node_modules_nonfinal_excluded (p : String) (excludeHiddenDirectories : Bool)
    (h : "node_modules" ∈ (pathSegments p).dropLast) :
    isExcludedFile p = true ∧
    isExcludedDirectory p excludeHiddenDirectories = true ∧
    matchesRecursiveDirGlob "node_modules" p = true ∧
    "**/node_modules/**" ∈ updateEffectiveExcludedDirs excludeHiddenDirectories := by
  refine ⟨?_, ?_, ?_, ?_⟩
  · simp only [isExcludedFile, Bool.if_true_left, Bool.or_eq_true, decide_eq_true_eq,
      List.any_eq_true]
    right
    exact ⟨"node_modules", h, by decide⟩
  · simp only [isExcludedDirectory, Bool.if_true_left, Bool.or_eq_true, decide_eq_true_eq,
      List.any_eq_true]
    right
    exact ⟨"node_modules", List.dropLast_subset _ h, by decide⟩
  · show (pathSegments p).dropLast.contains "node_modules" = true
    exact List.elem_eq_true_of_mem h
  · cases excludeHiddenDirectories <;> decide

/-- C7 (amended) witness at `/w/node_modules/a.ts`. -/
theorem node_modules_nonfinal_excluded_witness :
    isExcludedFile "/w/node_modules/a.ts" = true ∧
    isExcludedDirectory "/w/node_modules/a.ts" true = true ∧
    matchesRecursiveDirGlob "node_modules" "/w/node_modules/a.ts" = true ∧
    "**/node_modules/**" ∈ updateEffectiveExcludedDirs true :=
  node_modules_nonfinal_excluded "/w/node_modules/a.ts" true (by decide)

/-- C8: `refreshCache` is not an atomic snapshot swap.  With a cache
holding the file `/w/old.ts` and a rescan that finds `/w/new.ts`, the
state visible to a concurrent reader while the refresh awaits its glob
call is the CLEARED cache — neither the complete previous snapshot nor
the complete new one, refuting the claim that readers only ever observe
one of the two. -/
theorem refresh_exposes_cleared_cache :
    (⟨[], []⟩ : CacheState) ∈ refreshCacheMidStates [[⟨"/w/new.ts", false⟩]] ∧
    (⟨[], []⟩ : CacheState) ≠ (⟨["/w/old.ts"], []⟩ : CacheState) ∧
    refreshCacheFinal [[⟨"/w/new.ts", false⟩]] = ⟨["/w/new.ts"], []⟩ ∧
    (⟨[], []⟩ : CacheState) ≠ refreshCacheFinal [[⟨"/w/new.ts", false⟩]] := by
  refine ⟨by decide, by decide, by decide, by decide⟩

/-- C9: with a workspace root present, `getWorkspaceFolders` returns the
root twice around the cached folders: an entry named `root` at the
front, an entry named `./` at the back, both carrying the root's uri and
path with relative path `./`, and the cached folders unchanged in
between. -/
theorem workspace_root_listed_twice (cachedFolders : List WSFolder) (uri fsPath : String) :
    (getWorkspaceFolders cachedFolders (some (uri, fsPath))).head? =
      some ⟨uri, fsPath, "root", "./"⟩ ∧
    (getWorkspaceFolders cachedFolders (some (uri, fsPath))).getLast? =
      some ⟨uri, fsPath, "./", "./"⟩ ∧
    getWorkspaceFolders cachedFolders (some (uri, fsPath)) =
      ⟨uri, fsPath, "root", "./"⟩ :: (cachedFolders ++ [⟨uri, fsPath, "./", "./"⟩]) := by
  refine ⟨rfl, ?_, rfl⟩
  show (⟨uri, fsPath, "root", "./"⟩ ::
    (cachedFolders ++ [⟨uri, fsPath, "./", "./"⟩]) : List WSFolder).getLast? = _
  rw [← List.cons_append, List.getLast?_concat]

/-- C3: the rendered tree and the extracted ordered file list are
functions of the path set alone: two iteration orders (and
multiplicities) of the same set of paths — as two traversals of the same
JS `Set` or two rebuilds of it produce — yield the same sorted tree,
byte-identical render strings, and identical ordered leaf lists. -/
theorem tree_pipeline_deterministic (l₁ l₂ : List String) (root : String)
    (h : ∀ p, p ∈ l₁ ↔ p ∈ l₂) :
    buildFileTree l₁ root = buildFileTree l₂ root ∧
    renderTree (buildFileTree l₁ root) 0 "" = renderTree (buildFileTree l₂ root) 0 "" ∧
    extractOrderedPaths root (buildFileTree l₁ root) "" =
      extractOrderedPaths root (buildFileTree l₂ root) "" := by
  have heq := buildFileTree_eq_of_mem l₁ l₂ root h
  exact ⟨heq, by rw [heq], by rw [heq]⟩

/-- C3 witness: the same three paths in two different orders, one with a
duplicate, build identical trees, renders and ordered lists. -/
theorem tree_pipeline_deterministic_witness :
    buildFileTree ["/w/src/b.ts", "/w/a.ts", "/w/src"] "/w" =
      buildFileTree ["/w/src", "/w/a.ts", "/w/src/b.ts", "/w/a.ts"] "/w" ∧
    renderTree (buildFileTree ["/w/src/b.ts", "/w/a.ts", "/w/src"] "/w") 0 "" =
      renderTree (buildFileTree ["/w/src", "/w/a.ts", "/w/src/b.ts", "/w/a.ts"] "/w") 0 "" ∧
    extractOrderedPaths "/w" (buildFileTree ["/w/src/b.ts", "/w/a.ts", "/w/src"] "/w") "" =
      extractOrderedPaths "/w"
        (buildFileTree ["/w/src", "/w/a.ts", "/w/src/b.ts", "/w/a.ts"] "/w") "" :=
  tree_pipeline_deterministic ["/w/src/b.ts", "/w/a.ts", "/w/src"]
    ["/w/src", "/w/a.ts", "/w/src/b.ts", "/w/a.ts"] "/w"
    (by intro p; simp [List.mem_cons]; tauto)

/-- C5: the size comparison is strict (`>`, not `≥`) at both size
checks.  In the assembler, a file whose stat size is exactly the byte
limit is included with its real fenced content, while one byte more
yields the `File too large` placeholder.  In the folder scan — for a
positive bound; the settings UI enforces a minimum of 1 — an entry of
exactly the bound is kept and one byte more is dropped with a
`Skipped large file` warning. -/
theorem size_boundary_strict (fs : String → FileModel) (rel : String → String)
    (maxFileSizeMB : Nat) (p p' c : String)
    (folderScan : String → List (String × Nat)) (folder q r : String) (m : Nat)
    (hstat : (fs p).statSize = .ok (maxFileSizeMB * BYTES_PER_MB))
    (hread : (fs p).readData = .ok c) (hc : c ≠ "")
    (hexc : isExcludedFile p = false)
    (hstat' : (fs p').statSize = .ok (maxFileSizeMB * BYTES_PER_MB + 1))
    (hexc' : isExcludedFile p' = false)
    (hm : 0 < m)
    (hscan : folderScan folder = [(q, m), (r, m + 1)]) :
    processOne fs rel maxFileSizeMB p =
      some ⟨rel p, "```" ++ strDrop (extname p) 1 ++ "\n" ++ c ++ "\n```"⟩ ∧
    processOne fs rel maxFileSizeMB p' =
      some ⟨rel p', tooLargePlaceholder (maxFileSizeMB * BYTES_PER_MB + 1) maxFileSizeMB⟩ ∧
    getFilesFromFolder folderScan folder (some m) =
      ([(q, m)],
        ["Skipped large file " ++ basenameOf r ++ " (" ++
          toString ((m + 1 + BYTES_PER_KB / 2) / BYTES_PER_KB) ++ "KB)"]) := by
  refine ⟨?_, ?_, ?_⟩
  · simp [processOne, processFileForContent, hexc, hstat, readFile, hread, hc]
  · simp [processOne, processFileForContent, hexc', hstat']
  · simp [getFilesFromFolder, Nat.pos_iff_ne_zero.1 hm, hscan, sizeFilter,
      Nat.lt_irrefl, Nat.lt_succ_self]

/-- C5 witness: limit 1MB; a 1048576-byte file is fenced content, a
1048577-byte file is the placeholder; folder bound 1000 bytes keeps a
1000-byte entry and drops a 1001-byte one with the warning. -/
theorem size_boundary_strict_witness :
    processOne
      (fun path => if path = "/w/a.ts" then ⟨.ok 1048576, .ok "hello"⟩
        else ⟨.ok 1048577, .ok "hello"⟩)
      (fun path => path) 1 "/w/a.ts" =
      some ⟨"/w/a.ts", "```" ++ strDrop (extname "/w/a.ts") 1 ++ "\n" ++ "hello" ++ "\n```"⟩ ∧
    processOne
      (fun path => if path = "/w/a.ts" then ⟨.ok 1048576, .ok "hello"⟩
        else ⟨.ok 1048577, .ok "hello"⟩)
      (fun path => path) 1 "/w/b.ts" =
      some ⟨"/w/b.ts", tooLargePlaceholder (1 * BYTES_PER_MB + 1) 1⟩ ∧
    getFilesFromFolder (fun _ => [("/w/f/q.ts", 1000), ("/w/f/r.ts", 1001)]) "/w/f"
      (some 1000) =
      ([("/w/f/q.ts", 1000)],
        ["Skipped large file " ++ basenameOf "/w/f/r.ts" ++ " (" ++
          toString ((1000 + 1 + BYTES_PER_KB / 2) / BYTES_PER_KB) ++ "KB)"]) :=
  size_boundary_strict
    (fun path => if path = "/w/a.ts" then ⟨.ok 1048576, .ok "hello"⟩
      else ⟨.ok 1048577, .ok "hello"⟩)
    (fun path => path) 1 "/w/a.ts" "/w/b.ts" "hello"
    (fun _ => [("/w/f/q.ts", 1000), ("/w/f/r.ts", 1001)]) "/w/f" "/w/f/q.ts" "/w/f/r.ts" 1000
    rfl rfl (by decide) (by decide) rfl (by decide) (by decide) rfl

/-- C10: mentions whose type is neither `file` nor `folder` are silently
ignored: they contribute no path and no content entry, never raise, and
with only such mentions `_processFiles` returns exactly what it returns
for an empty mention list — the empty map string and no entries. -/
theorem other_mentions_ignored (fs : String → FileModel) (rel : String → String)
    (folderScan : String → List (String × Nat)) (excludeHiddenDirectories : Bool)
    (maxFileSizeMB : Nat) (rootPath : String) (mentions : List Mention)
    (completion : List Nat)
    (h : ∀ m ∈ mentions, m.type ≠ "file" ∧ m.type ≠ "folder") :
    collectMentionPaths folderScan excludeHiddenDirectories mentions = [] ∧
    processFilesResult fs rel folderScan excludeHiddenDirectories maxFileSizeMB
      mentions rootPath completion =
      processFilesResult fs rel folderScan excludeHiddenDirectories maxFileSizeMB
        [] rootPath completion ∧
    processFilesResult fs rel folderScan excludeHiddenDirectories maxFileSizeMB
      mentions rootPath completion = ("", []) := by
  have hcollect : collectMentionPaths folderScan excludeHiddenDirectories mentions = [] := by
    unfold collectMentionPaths
    have : ∀ acc, mentions.foldl (fun acc m =>
        if m.type = "file" then insertUnique acc m.id
        else if m.type = "folder" then
          let acc' := insertUnique acc m.id
          if isExcludedDirectory m.id excludeHiddenDirectories then acc'
          else
            ((getFilesFromFolder folderScan m.id none).1.map Prod.fst).foldl insertUnique acc'
        else acc) acc = acc := by
      induction mentions with
      | nil => intro acc; rfl
      | cons m rest ih =>
        intro acc
        have hm := h m (by simp)
        simp only [List.foldl_cons, if_neg hm.1, if_neg hm.2]
        exact ih (fun m hm => h m (by simp [hm])) acc
    exact this []
  have hnil : collectMentionPaths folderScan excludeHiddenDirectories [] = [] := rfl
  refine ⟨hcollect, ?_, ?_⟩ <;>
    simp [processFilesResult, hcollect, hnil]

theorem processOne_isSome (fs : String → FileModel) (rel : String → String)
    (maxFileSizeMB : Nat) (q : String) :
    (processOne fs rel maxFileSizeMB q).isSome = !(isExcludedFile q) := by
  unfold processOne processFileForContent
  have hc : ([] : List String).contains q = false := rfl
  rw [hc]
  simp only [Bool.false_eq_true, if_false]
  cases hexc : isExcludedFile q with
  | true => simp
  | false =>
    simp only [Bool.false_eq_true, if_false, Bool.not_false]
    cases (fs q).statSize with
    | error e => simp
    | ok n =>
      simp only
      split
      · simp
      · simp

theorem filterMap_range_get {α β : Type} (l : List α) (g : α → Option β) :
    (List.range l.length).filterMap (fun i => (l.get? i).bind g) = l.filterMap g := by
  induction l with
  | nil => rfl
  | cons a rest ih =>
    rw [List.length_cons, List.range_succ_eq_map, List.filterMap_cons]
    have hcomp : (fun i => ((a :: rest).get? i).bind g) ∘ (· + 1) =
        fun i => (rest.get? i).bind g := by
      funext i
      rfl
    rw [List.filterMap_map, hcomp, ih]
    cases hga : g a <;> simp [hga, List.filterMap_cons]

theorem length_filterMap_isSome {α β : Type} (l : List α) (g : α → Option β) :
    (l.filterMap g).length = (l.filter (fun a => (g a).isSome)).length := by
  induction l with
  | nil => rfl
  | cons a rest ih =>
    cases hga : g a <;> simp [List.filterMap_cons, List.filter_cons, hga, ih]

/-- C6 (counterexample): a file whose stat succeeds but whose content
read fails gets the `Empty file` placeholder — NOT the
`Error reading file` one the claim promises — because
`WorkspaceFileManager.readFile` swallows the error and returns the empty
string, which `_processFileForContent` then treats as empty content. -/
theorem read_failure_gives_empty_placeholder :
    runContentTasks (fun _ => ⟨.ok 3, .error ()⟩) (fun path => path) 5 ["/w/a.ts"] [0] =
      [⟨"/w/a.ts", "```\nEmpty file\n```"⟩] ∧
    (⟨"/w/a.ts", "```\nError reading file\n```"⟩ : Entry) ∉
      runContentTasks (fun _ => ⟨.ok 3, .error ()⟩) (fun path => path) 5 ["/w/a.ts"] [0] := by
  refine ⟨by decide, by decide⟩

/-- C6 (amended): a per-file failure never aborts generation and always
leaves a placeholder entry: under any read-completion order, a file
whose STAT throws contributes the `Error reading file` placeholder; a
file whose content READ fails contributes the `Empty file` placeholder
(readFile returns `""` on error); and the content phase still produces
exactly one entry for every non-excluded ordered path — no file is lost
to another file's failure. -/
theorem read_failure_isolated (fs : String → FileModel) (rel : String → String)
    (maxFileSizeMB : Nat) (ordered : List String) (completion : List Nat)
    (hcomp : List.Perm completion (List.range ordered.length))
    (p : String) (hp : p ∈ ordered) (hexc : isExcludedFile p = false) :
    ((fs p).statSize = .error () →
      (⟨rel p, "```\nError reading file\n```"⟩ : Entry) ∈
        runContentTasks fs rel maxFileSizeMB ordered completion) ∧
    (∀ n, (fs p).statSize = .ok n → n ≤ maxFileSizeMB * BYTES_PER_MB →
      (fs p).readData = .error () →
      (⟨rel p, "```\nEmpty file\n```"⟩ : Entry) ∈
        runContentTasks fs rel maxFileSizeMB ordered completion) ∧
    (runContentTasks fs rel maxFileSizeMB ordered completion).length =
      (ordered.filter (fun q => !(isExcludedFile q))).length := by
  have hmem : ∀ e : Entry, processOne fs rel maxFileSizeMB p = some e →
      e ∈ runContentTasks fs rel maxFileSizeMB ordered completion := by
    intro e he
    obtain ⟨j, hj⟩ := List.mem_iff_get?.1 hp
    have hlt : j < ordered.length := by
      rcases List.get?_eq_some.1 hj with ⟨hlt, _⟩
      exact hlt
    have hjc : j ∈ completion := hcomp.mem_iff.2 (List.mem_range.2 hlt)
    have hj' : ordered[j]? = some p := by
      rw [← List.get?_eq_getElem?]
      exact hj
    exact List.mem_filterMap.2 ⟨j, hjc, by simp [hj', he]⟩
  refine ⟨?_, ?_, ?_⟩
  · intro hstat
    apply hmem
    simp [processOne, processFileForContent, hexc, hstat]
  · intro n hstat hle hread
    apply hmem
    simp [processOne, processFileForContent, hexc, hstat, readFile, hread,
      Nat.not_lt.2 hle]
  · unfold runContentTasks
    rw [(hcomp.filterMap _).length_eq, filterMap_range_get, length_filterMap_isSome]
    have hcong : ∀ q ∈ ordered,
        (processOne fs rel maxFileSizeMB q).isSome = !(isExcludedFile q) :=
      fun q _ => processOne_isSome fs rel maxFileSizeMB q
    rw [List.filter_congr hcong]

/-- C6 (amended) witness: one stat-error file and one read-error file;
both placeholders appear and both files are counted. -/
theorem read_failure_isolated_witness :
    (⟨"/w/b.ts", "```\nError reading file\n```"⟩ : Entry) ∈
      runContentTasks
        (fun path => if path = "/w/b.ts" then ⟨.error (), .ok "x"⟩ else ⟨.ok 0, .error ()⟩)
        (fun path => path) 5 ["/w/a.ts", "/w/b.ts"] [1, 0] ∧
    (⟨"/w/a.ts", "```\nEmpty file\n```"⟩ : Entry) ∈
      runContentTasks
        (fun path => if path = "/w/b.ts" then ⟨.error (), .ok "x"⟩ else ⟨.ok 0, .error ()⟩)
        (fun path => path) 5 ["/w/a.ts", "/w/b.ts"] [1, 0] ∧
    (runContentTasks
        (fun path => if path = "/w/b.ts" then ⟨.error (), .ok "x"⟩ else ⟨.ok 0, .error ()⟩)
        (fun path => path) 5 ["/w/a.ts", "/w/b.ts"] [1, 0]).length =
      (["/w/a.ts", "/w/b.ts"].filter (fun q => !(isExcludedFile q))).length := by
  refine ⟨?_, ?_, ?_⟩
  · exact (read_failure_isolated
      (fun path => if path = "/w/b.ts" then ⟨.error (), .ok "x"⟩ else ⟨.ok 0, .error ()⟩)
      (fun path => path) 5 ["/w/a.ts", "/w/b.ts"] [1, 0] (by decide)
      "/w/b.ts" (by decide) (by decide)).1 rfl
  · exact (read_failure_isolated
      (fun path => if path = "/w/b.ts" then ⟨.error (), .ok "x"⟩ else ⟨.ok 0, .error ()⟩)
      (fun path => path) 5 ["/w/a.ts", "/w/b.ts"] [1, 0] (by decide)
      "/w/a.ts" (by decide) (by decide)).2.1 0 rfl (by decide) rfl
  · exact (read_failure_isolated
      (fun path => if path = "/w/b.ts" then ⟨.error (), .ok "x"⟩ else ⟨.ok 0, .error ()⟩)
      (fun path => path) 5 ["/w/a.ts", "/w/b.ts"] [1, 0] (by decide)
      "/w/a.ts" (by decide) (by decide)).2.2

/-- C10 witness: a lone mention of type `user` produces the empty
result. -/
theorem other_mentions_ignored_witness :
    collectMentionPaths (fun _ => []) true [⟨"u1", "someone", "user"⟩] = [] ∧
    processFilesResult (fun _ => ⟨.ok 0, .ok ""⟩) (fun path => path) (fun _ => []) true 5
      [⟨"u1", "someone", "user"⟩] "/w" [] =
      processFilesResult (fun _ => ⟨.ok 0, .ok ""⟩) (fun path => path) (fun _ => []) true 5
        [] "/w" [] ∧
    processFilesResult (fun _ => ⟨.ok 0, .ok ""⟩) (fun path => path) (fun _ => []) true 5
      [⟨"u1", "someone", "user"⟩] "/w" [] = ("", []) :=
  other_mentions_ignored (fun _ => ⟨.ok 0, .ok ""⟩) (fun path => path) (fun _ => []) true 5
    "/w" [⟨"u1", "someone", "user"⟩] [] (by decide)

end Repo2Text
